import Mathlib

/-!
Verification of the `env` module of `abstract_platform`.

The module in `src/env.rs` is a generic façade over a platform backend
(the `Std` trait): the public functions validate and adapt inputs,
delegate to the backend, and wrap results.  The platform-specific
primitives themselves (the PATH-list codec backends, environment
validation in `setenv`/`unsetenv`, snapshot capture) are not part of the
source file; they are modelled here from the specification's description
of the platform conventions (§4.1–§4.4 of the spec) and validated
against the concrete test cases that the source file does contain.

Paths handled by the codec are modelled as lists of characters; native
strings (`OsString`) as lists of bytes, since a native string may hold
arbitrary byte sequences that need not decode to Unicode.
-/

namespace AbstractPlatform

/-- Modelled from the spec: a path value handled by the PATH-list codec,
a sequence of characters. -/
abbrev PathStr := List Char

/-- Modelled from the spec (§4.2, POSIX convention): the splitting loop of
the POSIX `split_paths` backend.  The string is split on the literal
separator `:`; `acc` holds the current segment, reversed.  At end of
input the last accumulated segment (even if empty) is emitted. -/
def splitPathsUnixGo : List Char → List Char → List PathStr
  | [], acc => [acc.reverse]
  | c :: rest, acc =>
    if c = ':' then acc.reverse :: splitPathsUnixGo rest []
    else splitPathsUnixGo rest (c :: acc)

/-- Modelled from the spec (§4.2): POSIX `split_paths` — a direct split on
the separator byte with no quoting semantics. -/
def splitPathsUnix (s : List Char) : List PathStr :=
  splitPathsUnixGo s []

/-- Modelled from the spec (§4.2, Windows convention): the single-pass
state machine of the Windows `split_paths` backend.  Outside quotes, `;`
ends the current segment and `"` opens a quoted region (the quote itself
is consumed, not emitted); inside quotes every character, including `;`,
is copied verbatim until the closing quote; at end of input the last
accumulated segment (even if empty) is emitted, which also closes an
unmatched quote implicitly. -/
def splitPathsWindowsGo : List Char → List Char → Bool → List PathStr
  | [], acc, _ => [acc.reverse]
  | c :: rest, acc, inQuote =>
    if c = '"' then splitPathsWindowsGo rest acc (!inQuote)
    else if inQuote then splitPathsWindowsGo rest (c :: acc) true
    else if c = ';' then acc.reverse :: splitPathsWindowsGo rest [] false
    else splitPathsWindowsGo rest (c :: acc) false

/-- Modelled from the spec (§4.2): Windows `split_paths`, the quote-aware
left-to-right scan starting outside quotes with an empty segment. -/
def splitPathsWindows (s : List Char) : List PathStr :=
  splitPathsWindowsGo s [] false

/-- Modelled from the spec (§4.3, POSIX): the joining loop of the POSIX
`join_paths` backend.  Each path is validated in order: a path containing
the separator `:` fails (the error carries the offending path); otherwise
the paths are concatenated with `:` between consecutive elements,
preserving empty entries.  An empty input yields the empty string. -/
def joinPathsUnix : List PathStr → Except PathStr (List Char)
  | [] => .ok []
  | [p] => if ':' ∈ p then .error p else .ok p
  | p :: q :: rest =>
    if ':' ∈ p then .error p
    else
      match joinPathsUnix (q :: rest) with
      | .error bad => .error bad
      | .ok s => .ok (p ++ ':' :: s)

/-- Modelled from the spec (§4.3, Windows): a path containing the
separator `;` is wrapped in quote characters before insertion; any other
path is inserted unquoted. -/
def quoteIfNeeded (p : PathStr) : List Char :=
  if ';' ∈ p then '"' :: p ++ ['"'] else p

/-- Modelled from the spec (§4.3, Windows): the joining loop of the
Windows `join_paths` backend.  Each path is validated in order: a path
containing the quote character fails (the error carries the offending
path); a path containing the separator is wrapped in quotes; the
resulting segments are joined with `;`. -/
def joinPathsWindows : List PathStr → Except PathStr (List Char)
  | [] => .ok []
  | [p] => if '"' ∈ p then .error p else .ok (quoteIfNeeded p)
  | p :: q :: rest =>
    if '"' ∈ p then .error p
    else
      match joinPathsWindows (q :: rest) with
      | .error bad => .error bad
      | .ok s => .ok (quoteIfNeeded p ++ ';' :: s)

/-- Specification-side description of joining: segments concatenated with
the separator between consecutive elements (spec §4.3, "concatenate all
paths with the separator between them").  Used to compare the joining
loops against the spec's words. -/
def sepJoin (sep : Char) : List (List Char) → List Char
  | [] => []
  | [p] => p
  | p :: q :: rest => p ++ sep :: sepJoin sep (q :: rest)

end AbstractPlatform

namespace AbstractPlatform

/-- Validation of the modelled POSIX splitter against the `split_paths_unix` test of src/env.rs (lines 1013–1028). -/
lemma model_matches_src_tests_split_unix :
    splitPathsUnix "".toList = [[]] ∧
    splitPathsUnix "::".toList = ["".toList, "".toList, "".toList] ∧
    splitPathsUnix "/".toList = ["/".toList] ∧
    splitPathsUnix "/:".toList = ["/".toList, "".toList] ∧
    splitPathsUnix "/:/usr/local".toList = ["/".toList, "/usr/local".toList] :=
  ⟨rfl, rfl, rfl, rfl, rfl⟩

/-- Validation of the modelled Windows splitter against the `split_paths_windows` test of src/env.rs (lines 991–1011). -/
lemma model_matches_src_tests_split_windows :
    splitPathsWindows "".toList = [[]] ∧
    splitPathsWindows "\"\"".toList = [[]] ∧
    splitPathsWindows ";;".toList = [[], [], []] ∧
    splitPathsWindows "c:\\".toList = ["c:\\".toList] ∧
    splitPathsWindows "c:\\;".toList = ["c:\\".toList, [] ] ∧
    splitPathsWindows "c:\\;c:\\Program Files\\".toList = ["c:\\".toList, "c:\\Program Files\\".toList] ∧
    splitPathsWindows "c:\\;c:\\\"foo\"\\".toList = ["c:\\".toList, "c:\\foo\\".toList] ∧
    splitPathsWindows "c:\\;c:\\\"foo;bar\"\\;c:\\baz".toList = ["c:\\".toList, "c:\\foo;bar\\".toList, "c:\\baz".toList] :=
  ⟨rfl, rfl, rfl, rfl, rfl, rfl, rfl, rfl⟩

/-- Validation of the modelled POSIX joiner against the `join_paths_unix` test of src/env.rs (lines 1030–1046). -/
lemma model_matches_src_tests_join_unix :
    joinPathsUnix [] = .ok [] ∧
    joinPathsUnix ["/bin".toList, "/usr/bin".toList, "/usr/local/bin".toList] = .ok "/bin:/usr/bin:/usr/local/bin".toList ∧
    joinPathsUnix [[], "/bin".toList, [], [], "/usr/bin".toList, []] = .ok ":/bin:::/usr/bin:".toList ∧
    joinPathsUnix ["/te:st".toList] = .error "/te:st".toList :=
  ⟨rfl, rfl, rfl, rfl⟩

/-- Validation of the modelled Windows joiner against the `join_paths_windows` test of src/env.rs (lines 1048–1066). -/
lemma model_matches_src_tests_join_windows :
    joinPathsWindows [] = .ok [] ∧
    joinPathsWindows ["c:\\windows".toList, "c:\\".toList] = .ok "c:\\windows;c:\\".toList ∧
    joinPathsWindows [[], "c:\\windows".toList, [], [], "c:\\".toList, []] = .ok ";c:\\windows;;;c:\\;".toList ∧
    joinPathsWindows ["c:\\te;st".toList, "c:\\".toList] = .ok "\"c:\\te;st\";c:\\".toList ∧
    joinPathsWindows ["c:\\te\"st".toList] = .error "c:\\te\"st".toList :=
  ⟨rfl, rfl, rfl, rfl, rfl⟩

end AbstractPlatform

namespace AbstractPlatform

/-- Modelled from the spec (glossary): a native string, able to hold any
byte sequence the host platform allows in environment values, not
necessarily valid Unicode. -/
abbrev NativeString := List Nat

/-- Modelled from the spec: the external primitive deciding whether a
byte participates in a strict-Unicode decodable native string.  The
encoding machinery itself is out of scope of the module ("treated as a
given primitive type"), so we model decodable native strings as those
whose bytes are ASCII. -/
def isUnicodeByte (b : Nat) : Bool := b < 128

/-- Modelled from the spec: whether a native string can be decoded as a
strict Unicode string. -/
def decodableNative (s : NativeString) : Bool := s.all isUnicodeByte

/-- Modelled from the spec: the decoded Unicode string of a decodable
native string. -/
def decodeNative (s : NativeString) : String := String.mk (s.map Char.ofNat)

/-- Modelled from the spec: the fallible conversion from a native string
to a strict Unicode string (`OsString::into_string`); on failure the raw
native string itself is returned as the error payload. -/
def into_string (s : NativeString) : Except NativeString String :=
  if decodableNative s then .ok (decodeNative s) else .error s

/-- Outcome of an operation that may panic: `fatal` is an unrecoverable
contract-violation termination (Rust's `panic!`), `ok` a normal result. -/
inductive Panics (α : Type) where
  | fatal
  | ok (val : α)
deriving DecidableEq

/-- Error payload for `VarError` (src/env.rs lines 248–261): the variable
is absent, or present but not valid Unicode, carrying the raw value. -/
inductive VarError where
  | NotPresent
  | NotUnicode (raw : NativeString)
deriving DecidableEq

/-- Embedding of `_var_os` (src/env.rs lines 238–242): delegate to the
backend `getenv` and panic on an OS-level failure; `g` is the backend
`getenv`, whose error case is an OS failure distinct from absence. -/
def _var_os (g : NativeString → Except String (Option NativeString))
    (key : NativeString) : Panics (Option NativeString) :=
  match g key with
  | .error _ => .fatal
  | .ok v => .ok v

/-- Embedding of `_var` (src/env.rs lines 210–215): absence maps to
`NotPresent`; a present value is decoded, a decoding failure mapped to
`NotUnicode` carrying the raw value. -/
def _var (g : NativeString → Except String (Option NativeString))
    (key : NativeString) : Panics (Except VarError String) :=
  match _var_os g key with
  | .fatal => .fatal
  | .ok none => .ok (.error .NotPresent)
  | .ok (some s) =>
    .ok (match into_string s with
         | .ok str => .ok str
         | .error raw => .error (.NotUnicode raw))

end AbstractPlatform

namespace AbstractPlatform

/-- Embedding of `Vars::next` (src/env.rs lines 156–164) run to
exhaustion over the captured snapshot: each `(key, value)` pair is
decoded with `into_string(..).unwrap()`, key first; the first pair whose
key or value is not decodable panics. -/
def varsCollect : List (NativeString × NativeString) → Panics (List (String × String))
  | [] => .ok []
  | (a, b) :: rest =>
    match into_string a with
    | .error _ => .fatal
    | .ok ka =>
      match into_string b with
      | .error _ => .fatal
      | .ok vb =>
        match varsCollect rest with
        | .fatal => .fatal
        | .ok tl => .ok ((ka, vb) :: tl)

/-- Embedding of `VarsOs::next` (src/env.rs lines 174–178) run to
exhaustion: the raw snapshot pairs are yielded unchanged. -/
def varsOsCollect : List (NativeString × NativeString) → List (NativeString × NativeString)
  | [] => []
  | p :: rest => p :: varsOsCollect rest

/-- Embedding of `Args::next` (src/env.rs lines 734–740) run to
exhaustion: each argument is decoded with `into_string(..).unwrap()`;
the first non-decodable argument panics. -/
def argsCollect : List NativeString → Panics (List String)
  | [] => .ok []
  | a :: rest =>
    match into_string a with
    | .error _ => .fatal
    | .ok s =>
      match argsCollect rest with
      | .fatal => .fatal
      | .ok tl => .ok (s :: tl)

/-- Embedding of `ArgsOs::next` (src/env.rs lines 771–775) run to
exhaustion: the raw snapshot is yielded unchanged. -/
def argsOsCollect : List NativeString → List NativeString
  | [] => []
  | a :: rest => a :: argsOsCollect rest

/-- Embedding of `ArgsOs::next_back` (src/env.rs lines 783–786) run to
exhaustion: elements are taken from the back of the snapshot, yielded in
reverse order. -/
def argsOsCollectBack (l : List NativeString) : List NativeString :=
  if h : l = [] then []
  else l.getLast h :: argsOsCollectBack l.dropLast
termination_by l.length
decreasing_by
  cases l with
  | nil => exact absurd rfl h
  | cons a t => simp

/-- Embedding of `Args::next_back` (src/env.rs lines 749–753) run to
exhaustion: elements are taken from the back and decoded with
`into_string(..).unwrap()`; the first non-decodable argument reached
from the back panics. -/
def argsCollectBack (l : List NativeString) : Panics (List String) :=
  if h : l = [] then .ok []
  else
    match into_string (l.getLast h) with
    | .error _ => .fatal
    | .ok s =>
      match argsCollectBack l.dropLast with
      | .fatal => .fatal
      | .ok tl => .ok (s :: tl)
termination_by l.length
decreasing_by
  cases l with
  | nil => exact absurd rfl h
  | cons a t => simp

/-- Embedding of `ExactSizeIterator::len` for `ArgsOs` (src/env.rs lines
777–781): the exact remaining count of a fresh snapshot. -/
def argsOsLen (l : List NativeString) : Nat := l.length

end AbstractPlatform

namespace AbstractPlatform

/-- The environment, a sequence of key–value pairs with unique keys. -/
abbrev Env := List (NativeString × NativeString)

/-- Modelled from the spec (§6): a key passed to a mutation is invalid —
a contract violation — when it is empty, contains the ASCII equals sign
(byte 61), or contains NUL (byte 0). -/
def validKey (k : NativeString) : Bool :=
  !(k.isEmpty) && !(k.contains 61) && !(k.contains 0)

/-- Modelled from the spec (§6): a value passed to a mutation is invalid
when it contains NUL (byte 0). -/
def validValue (v : NativeString) : Bool := !(v.contains 0)

/-- Update of the environment performed by a successful `setenv`: the
binding of `k` is replaced if present, appended otherwise. -/
def envSet : Env → NativeString → NativeString → Env
  | [], k, v => [(k, v)]
  | (k0, v0) :: rest, k, v =>
    if k0 = k then (k, v) :: rest else (k0, v0) :: envSet rest k v

/-- Update of the environment performed by a successful `unsetenv`: every
binding of `k` is dropped. -/
def envRemove (env : Env) (k : NativeString) : Env :=
  env.filter (fun p => p.1 ≠ k)

/-- Modelled from the spec (§4.1): the backend `setenv`.  A malformed key
or a value containing NUL is rejected before any mutation; otherwise the
updated environment is produced. -/
def setenv (env : Env) (k v : NativeString) : Except String Env :=
  if validKey k && validValue v then .ok (envSet env k v)
  else .error "invalid environment variable mutation"

/-- Modelled from the spec (§4.1): the backend `unsetenv`, with the same
key-malformation contract as `setenv`. -/
def unsetenv (env : Env) (k : NativeString) : Except String Env :=
  if validKey k then .ok (envRemove env k)
  else .error "invalid environment variable name"

/-- Embedding of `_set_var` (src/env.rs lines 319–324): delegate to the
backend `setenv` and panic on its error.  A panic produces no
environment at all: the ambient environment is the untouched `env`. -/
def _set_var (env : Env) (k v : NativeString) : Panics Env :=
  match setenv env k v with
  | .error _ => .fatal
  | .ok env' => .ok env'

/-- Embedding of `_remove_var` (src/env.rs lines 362–366): delegate to
the backend `unsetenv` and panic on its error. -/
def _remove_var (env : Env) (k : NativeString) : Panics Env :=
  match unsetenv env k with
  | .error _ => .fatal
  | .ok env' => .ok env'

/-- Ambient environment after a possibly panicking mutation: a panic
terminates the operation with the environment left as it was, a normal
result installs the mutated environment. -/
def afterMutation (env : Env) : Panics Env → Env
  | .fatal => env
  | .ok env' => env'

/-- Sample backend `getenv` used to witness the error taxonomy of
`var`: key `[1]` holds a non-decodable value, key `[2]` a decodable one,
every other key is absent. -/
def sampleGetenv : NativeString → Except String (Option NativeString) :=
  fun k =>
    if k = [1] then .ok (some [200])
    else if k = [2] then .ok (some [65])
    else .ok none

/-- Backend `getenv` that reports an OS-level failure on every key, used
to witness the panic path of `var_os`. -/
def failingGetenv : NativeString → Except String (Option NativeString) :=
  fun _ => .error "getenv failed"

end AbstractPlatform

namespace AbstractPlatform

lemma splitPathsUnixGo_clean (x : List Char) (acc : List Char) (hx : ':' ∉ x) :
    splitPathsUnixGo x acc = [acc.reverse ++ x] := by
  induction x generalizing acc with
  | nil => simp [splitPathsUnixGo]
  | cons c x' ih =>
    have hc : c ≠ ':' := fun h => hx (h ▸ List.mem_cons_self c x')
    have hx' : ':' ∉ x' := fun h => hx (List.mem_cons_of_mem c h)
    simp [splitPathsUnixGo, hc, ih _ hx']

lemma splitPathsUnixGo_append (x : List Char) (s acc : List Char) (hx : ':' ∉ x) :
    splitPathsUnixGo (x ++ s) acc = splitPathsUnixGo s (x.reverse ++ acc) := by
  induction x generalizing acc with
  | nil => simp
  | cons c x' ih =>
    have hc : c ≠ ':' := fun h => hx (h ▸ List.mem_cons_self c x')
    have hx' : ':' ∉ x' := fun h => hx (List.mem_cons_of_mem c h)
    simp [splitPathsUnixGo, hc, ih _ hx']

lemma splitPathsUnixGo_sep (t acc : List Char) :
    splitPathsUnixGo (':' :: t) acc = acc.reverse :: splitPathsUnixGo t [] := by
  simp [splitPathsUnixGo]

lemma splitUnix_sepJoin (v : List PathStr) (hv : v ≠ [])
    (hc : ∀ p ∈ v, ':' ∉ p) : splitPathsUnix (sepJoin ':' v) = v := by
  induction v with
  | nil => exact absurd rfl hv
  | cons x v' ih =>
    cases v' with
    | nil =>
      have hx : ':' ∉ x := hc x (List.mem_cons_self x [])
      simp [sepJoin, splitPathsUnix, splitPathsUnixGo_clean x [] hx]
    | cons q rest =>
      have hx : ':' ∉ x := hc x (List.mem_cons_self x _)
      have hc' : ∀ p ∈ q :: rest, ':' ∉ p := fun p hp => hc p (List.mem_cons_of_mem x hp)
      have step : splitPathsUnix (sepJoin ':' (x :: q :: rest))
          = x :: splitPathsUnix (sepJoin ':' (q :: rest)) := by
        simp only [sepJoin, splitPathsUnix]
        rw [splitPathsUnixGo_append x _ [] hx, splitPathsUnixGo_sep]
        simp
      rw [step, ih (by simp) hc']

end AbstractPlatform

namespace AbstractPlatform

lemma splitPathsWindowsGo_out (x : List Char) (s acc : List Char)
    (hq : '"' ∉ x) (hs : ';' ∉ x) :
    splitPathsWindowsGo (x ++ s) acc false = splitPathsWindowsGo s (x.reverse ++ acc) false := by
  induction x generalizing acc with
  | nil => simp
  | cons c x' ih =>
    have hcq : c ≠ '"' := fun h => hq (h ▸ List.mem_cons_self c x')
    have hcs : c ≠ ';' := fun h => hs (h ▸ List.mem_cons_self c x')
    have hq' : '"' ∉ x' := fun h => hq (List.mem_cons_of_mem c h)
    have hs' : ';' ∉ x' := fun h => hs (List.mem_cons_of_mem c h)
    simp [splitPathsWindowsGo, hcq, hcs, ih _ hq' hs']

lemma splitPathsWindowsGo_in (x : List Char) (s acc : List Char) (hq : '"' ∉ x) :
    splitPathsWindowsGo (x ++ '"' :: s) acc true = splitPathsWindowsGo s (x.reverse ++ acc) false := by
  induction x generalizing acc with
  | nil => simp [splitPathsWindowsGo]
  | cons c x' ih =>
    have hcq : c ≠ '"' := fun h => hq (h ▸ List.mem_cons_self c x')
    have hq' : '"' ∉ x' := fun h => hq (List.mem_cons_of_mem c h)
    simp [splitPathsWindowsGo, hcq, ih _ hq']

lemma splitPathsWindowsGo_encode (x : List Char) (s acc : List Char) (hq : '"' ∉ x) :
    splitPathsWindowsGo (quoteIfNeeded x ++ s) acc false
      = splitPathsWindowsGo s (x.reverse ++ acc) false := by
  by_cases hs : ';' ∈ x
  · have : quoteIfNeeded x ++ s = '"' :: (x ++ '"' :: s) := by simp [quoteIfNeeded, hs]
    rw [this]
    show splitPathsWindowsGo ('"' :: (x ++ '"' :: s)) acc false = _
    simp only [splitPathsWindowsGo, if_pos rfl, Bool.not_false]
    exact splitPathsWindowsGo_in x s acc hq
  · rw [quoteIfNeeded, if_neg hs]
    exact splitPathsWindowsGo_out x s acc hq hs

lemma splitPathsWindowsGo_sep (t acc : List Char) :
    splitPathsWindowsGo (';' :: t) acc false = acc.reverse :: splitPathsWindowsGo t [] false := by
  simp [splitPathsWindowsGo]

lemma splitWin_sepJoin (v : List PathStr) (hv : v ≠ [])
    (hq : ∀ p ∈ v, '"' ∉ p) :
    splitPathsWindows (sepJoin ';' (v.map quoteIfNeeded)) = v := by
  induction v with
  | nil => exact absurd rfl hv
  | cons x v' ih =>
    cases v' with
    | nil =>
      have hx : '"' ∉ x := hq x (List.mem_cons_self x [])
      have henc := splitPathsWindowsGo_encode x [] [] hx
      rw [List.append_nil] at henc
      simp [sepJoin, splitPathsWindows, henc, splitPathsWindowsGo]
    | cons q rest =>
      have hx : '"' ∉ x := hq x (List.mem_cons_self x _)
      have hq' : ∀ p ∈ q :: rest, '"' ∉ p := fun p hp => hq p (List.mem_cons_of_mem x hp)
      have step : splitPathsWindows (sepJoin ';' ((x :: q :: rest).map quoteIfNeeded))
          = x :: splitPathsWindows (sepJoin ';' ((q :: rest).map quoteIfNeeded)) := by
        simp only [List.map_cons, sepJoin, splitPathsWindows]
        rw [splitPathsWindowsGo_encode x _ [] hx, splitPathsWindowsGo_sep]
        simp
      rw [step, ih (by simp) hq']

end AbstractPlatform

namespace AbstractPlatform

lemma joinUnix_clean (v : List PathStr) (hc : ∀ p ∈ v, ':' ∉ p) :
    joinPathsUnix v = .ok (sepJoin ':' v) := by
  induction v with
  | nil => rfl
  | cons x v' ih =>
    have hx : ':' ∉ x := hc x (List.mem_cons_self x _)
    cases v' with
    | nil => simp [joinPathsUnix, sepJoin, hx]
    | cons q rest =>
      have hc' : ∀ p ∈ q :: rest, ':' ∉ p := fun p hp => hc p (List.mem_cons_of_mem x hp)
      simp [joinPathsUnix, sepJoin, hx, ih hc']

lemma joinUnix_ok (v : List PathStr) (s : List Char) (h : joinPathsUnix v = .ok s) :
    (∀ p ∈ v, ':' ∉ p) ∧ s = sepJoin ':' v := by
  induction v generalizing s with
  | nil =>
    simp [joinPathsUnix] at h
    simp [sepJoin, h.symm]
  | cons x v' ih =>
    cases v' with
    | nil =>
      by_cases hx : ':' ∈ x
      · simp [joinPathsUnix, hx] at h
      · simp [joinPathsUnix, hx] at h
        simp [sepJoin, hx, h.symm]
    | cons q rest =>
      by_cases hx : ':' ∈ x
      · simp [joinPathsUnix, hx] at h
      · rw [joinPathsUnix, if_neg hx] at h
        cases hr : joinPathsUnix (q :: rest) with
        | error bad => rw [hr] at h; exact absurd h (by simp)
        | ok s' =>
          rw [hr] at h
          have hs : s = x ++ ':' :: s' := by
            have : Except.ok (ε := PathStr) (x ++ ':' :: s') = .ok s := h
            simpa using this.symm
          obtain ⟨hall, hsp⟩ := ih s' hr
          refine ⟨?_, ?_⟩
          · intro p hp
            rcases List.mem_cons.mp hp with h1 | h1
            · exact h1 ▸ hx
            · exact hall p h1
          · rw [hs, hsp, sepJoin]

lemma joinUnix_err (v : List PathStr) (h : ∃ p ∈ v, ':' ∈ p) :
    ∃ q ∈ v, joinPathsUnix v = .error q ∧ ':' ∈ q := by
  induction v with
  | nil => simp at h
  | cons x v' ih =>
    by_cases hx : ':' ∈ x
    · refine ⟨x, List.mem_cons_self x _, ?_, hx⟩
      cases v' with
      | nil => simp [joinPathsUnix, hx]
      | cons q rest => simp [joinPathsUnix, hx]
    · have h' : ∃ p ∈ v', ':' ∈ p := by
        rcases h with ⟨p, hp, hcp⟩
        rcases List.mem_cons.mp hp with h1 | h1
        · exact absurd (h1 ▸ hcp) hx
        · exact ⟨p, h1, hcp⟩
      obtain ⟨q0, hq0, herr, hcq⟩ := ih h'
      refine ⟨q0, List.mem_cons_of_mem x hq0, ?_, hcq⟩
      cases v' with
      | nil => simp at hq0
      | cons q rest => simp [joinPathsUnix, hx, herr]

end AbstractPlatform

namespace AbstractPlatform

lemma joinWin_clean (v : List PathStr) (hq : ∀ p ∈ v, '"' ∉ p) :
    joinPathsWindows v = .ok (sepJoin ';' (v.map quoteIfNeeded)) := by
  induction v with
  | nil => rfl
  | cons x v' ih =>
    have hx : '"' ∉ x := hq x (List.mem_cons_self x _)
    cases v' with
    | nil => simp [joinPathsWindows, sepJoin, hx]
    | cons q rest =>
      have hq' : ∀ p ∈ q :: rest, '"' ∉ p := fun p hp => hq p (List.mem_cons_of_mem x hp)
      simp [joinPathsWindows, sepJoin, hx, ih hq']

lemma joinWin_ok (v : List PathStr) (s : List Char) (h : joinPathsWindows v = .ok s) :
    (∀ p ∈ v, '"' ∉ p) ∧ s = sepJoin ';' (v.map quoteIfNeeded) := by
  induction v generalizing s with
  | nil =>
    simp [joinPathsWindows] at h
    simp [sepJoin, h.symm]
  | cons x v' ih =>
    cases v' with
    | nil =>
      by_cases hx : '"' ∈ x
      · simp [joinPathsWindows, hx] at h
      · simp [joinPathsWindows, hx] at h
        simp [sepJoin, hx, h.symm]
    | cons q rest =>
      by_cases hx : '"' ∈ x
      · simp [joinPathsWindows, hx] at h
      · rw [joinPathsWindows, if_neg hx] at h
        cases hr : joinPathsWindows (q :: rest) with
        | error bad => rw [hr] at h; exact absurd h (by simp)
        | ok s' =>
          rw [hr] at h
          have hs : s = quoteIfNeeded x ++ ';' :: s' := by
            have : Except.ok (ε := PathStr) (quoteIfNeeded x ++ ';' :: s') = .ok s := h
            simpa using this.symm
          obtain ⟨hall, hsp⟩ := ih s' hr
          refine ⟨?_, ?_⟩
          · intro p hp
            rcases List.mem_cons.mp hp with h1 | h1
            · exact h1 ▸ hx
            · exact hall p h1
          · rw [hs, hsp]
            simp [sepJoin]

lemma joinWin_err (v : List PathStr) (h : ∃ p ∈ v, '"' ∈ p) :
    ∃ q ∈ v, joinPathsWindows v = .error q ∧ '"' ∈ q := by
  induction v with
  | nil => simp at h
  | cons x v' ih =>
    by_cases hx : '"' ∈ x
    · refine ⟨x, List.mem_cons_self x _, ?_, hx⟩
      cases v' with
      | nil => simp [joinPathsWindows, hx]
      | cons q rest => simp [joinPathsWindows, hx]
    · have h' : ∃ p ∈ v', '"' ∈ p := by
        rcases h with ⟨p, hp, hcp⟩
        rcases List.mem_cons.mp hp with h1 | h1
        · exact absurd (h1 ▸ hcp) hx
        · exact ⟨p, h1, hcp⟩
      obtain ⟨q0, hq0, herr, hcq⟩ := ih h'
      refine ⟨q0, List.mem_cons_of_mem x hq0, ?_, hcq⟩
      cases v' with
      | nil => simp at hq0
      | cons q rest => simp [joinPathsWindows, hx, herr]

end AbstractPlatform

namespace AbstractPlatform

lemma varsOsCollect_id (l : List (NativeString × NativeString)) : varsOsCollect l = l := by
  induction l with
  | nil => rfl
  | cons p rest ih => simp [varsOsCollect, ih]

lemma argsOsCollect_id (l : List NativeString) : argsOsCollect l = l := by
  induction l with
  | nil => rfl
  | cons a rest ih => simp [argsOsCollect, ih]

lemma argsOsCollectBack_concat (l : List NativeString) (a : NativeString) :
    argsOsCollectBack (l ++ [a]) = a :: argsOsCollectBack l := by
  rw [argsOsCollectBack]
  simp [List.getLast_append_singleton]

lemma argsOsCollectBack_reverse (l : List NativeString) :
    argsOsCollectBack l = l.reverse := by
  induction l using List.reverseRecOn with
  | nil => rw [argsOsCollectBack]; rfl
  | append_singleton xs x ih => simp [argsOsCollectBack_concat, ih]

lemma argsCollectBack_concat (l : List NativeString) (a : NativeString) :
    argsCollectBack (l ++ [a])
      = (match into_string a with
         | .error _ => .fatal
         | .ok s =>
           match argsCollectBack l with
           | .fatal => .fatal
           | .ok tl => .ok (s :: tl)) := by
  rw [argsCollectBack]
  simp [List.getLast_append_singleton]

lemma argsCollectBack_eq (l : List NativeString) :
    argsCollectBack l = argsCollect l.reverse := by
  induction l using List.reverseRecOn with
  | nil => rw [argsCollectBack]; rfl
  | append_singleton xs x ih =>
    rw [argsCollectBack_concat, ih]
    simp [argsCollect]

end AbstractPlatform

namespace AbstractPlatform

lemma argsCollect_clean (l : List NativeString) (h : ∀ a ∈ l, decodableNative a) :
    argsCollect l = .ok (l.map decodeNative) := by
  induction l with
  | nil => rfl
  | cons a rest ih =>
    have ha : decodableNative a := h a (List.mem_cons_self a _)
    have h' : ∀ b ∈ rest, decodableNative b := fun b hb => h b (List.mem_cons_of_mem a hb)
    simp [argsCollect, into_string, ha, ih h']

lemma argsCollect_bad (l : List NativeString) (h : ∃ a ∈ l, ¬ decodableNative a) :
    argsCollect l = .fatal := by
  induction l with
  | nil => simp at h
  | cons a rest ih =>
    by_cases ha : decodableNative a
    · have h' : ∃ b ∈ rest, ¬ decodableNative b := by
        rcases h with ⟨b, hb, hdb⟩
        rcases List.mem_cons.mp hb with h1 | h1
        · exact absurd (h1 ▸ ha) hdb
        · exact ⟨b, h1, hdb⟩
      simp [argsCollect, into_string, ha, ih h']
    · simp [argsCollect, into_string, ha]

lemma varsCollect_clean (l : List (NativeString × NativeString))
    (h : ∀ p ∈ l, decodableNative p.1 ∧ decodableNative p.2) :
    varsCollect l = .ok (l.map (fun p => (decodeNative p.1, decodeNative p.2))) := by
  induction l with
  | nil => rfl
  | cons p rest ih =>
    obtain ⟨h1, h2⟩ := h p (List.mem_cons_self p _)
    have h' : ∀ q ∈ rest, decodableNative q.1 ∧ decodableNative q.2 :=
      fun q hq => h q (List.mem_cons_of_mem p hq)
    cases p with
    | mk a b => simp_all [varsCollect, into_string, ih h']

lemma varsCollect_bad (l : List (NativeString × NativeString))
    (h : ∃ p ∈ l, ¬ decodableNative p.1 ∨ ¬ decodableNative p.2) :
    varsCollect l = .fatal := by
  induction l with
  | nil => simp at h
  | cons p rest ih =>
    by_cases hp : decodableNative p.1 ∧ decodableNative p.2
    · have h' : ∃ q ∈ rest, ¬ decodableNative q.1 ∨ ¬ decodableNative q.2 := by
        rcases h with ⟨q, hq, hdq⟩
        rcases List.mem_cons.mp hq with h1 | h1
        · subst h1
          rcases hdq with hd | hd
          · exact absurd hp.1 hd
          · exact absurd hp.2 hd
        · exact ⟨q, h1, hdq⟩
      cases p with
      | mk a b => simp [varsCollect, into_string, hp.1, hp.2, ih h']
    · rw [Decidable.not_and_iff_or_not] at hp
      cases p with
      | mk a b =>
        rcases hp with hd | hd
        · simp only [Bool.not_eq_true] at hd
          simp [varsCollect, into_string, hd]
        · simp only [Bool.not_eq_true] at hd
          by_cases ha : decodableNative a
          · simp [varsCollect, into_string, ha, hd]
          · simp [varsCollect, into_string, ha]

end AbstractPlatform

namespace AbstractPlatform

lemma validKey_iff (k : NativeString) :
    validKey k = true ↔ (k ≠ [] ∧ (61:Nat) ∉ k ∧ (0:Nat) ∉ k) := by
  simp [validKey, List.isEmpty_iff, and_assoc]

lemma validValue_iff (v : NativeString) : validValue v = true ↔ (0:Nat) ∉ v := by
  simp [validValue]

/-- C7: on both platform conventions, `split_paths` applied to the empty
string yields exactly one path, the empty path — one element, not zero. -/
theorem split_paths_empty_singleton :
    splitPathsUnix "".toList = [[]] ∧ splitPathsWindows "".toList = [[]] ∧
    (splitPathsUnix "".toList).length = 1 ∧ (splitPathsWindows "".toList).length = 1 :=
  ⟨rfl, rfl, rfl, rfl⟩

/-- C2: Windows `split_paths` is a quote-aware scan: a quote opens a
region whose characters, including `;`, are copied verbatim and whose
quote characters are never emitted; an unmatched quote is closed
implicitly at end of input.  In particular the input
`c:\;c:\"foo;bar"\;c:\baz` yields exactly the three paths `c:\`,
`c:\foo;bar\` and `c:\baz`. -/
theorem split_paths_windows_quoting :
    splitPathsWindows "c:\\;c:\\\"foo;bar\"\\;c:\\baz".toList
      = ["c:\\".toList, "c:\\foo;bar\\".toList, "c:\\baz".toList] ∧
    splitPathsWindows "\"c:\\foo;bar\"".toList = ["c:\\foo;bar".toList] ∧
    splitPathsWindows "\"\"".toList = [[]] ∧
    splitPathsWindows "c:\\\"foo".toList = ["c:\\foo".toList] ∧
    splitPathsWindows "c:\\;c:\\Program Files\\".toList
      = ["c:\\".toList, "c:\\Program Files\\".toList] :=
  ⟨rfl, rfl, rfl, rfl, rfl⟩

/-- C3: POSIX `join_paths` fails with an error attributable to an
offending path whenever some input path contains the separator `:`, and
otherwise succeeds with the paths concatenated with `:` between
consecutive elements, empty entries preserved as empty segments.  The
concrete conjuncts check the spec's examples. -/
theorem join_paths_unix_spec (v : List PathStr) :
    ((∀ p ∈ v, ':' ∉ p) → joinPathsUnix v = .ok (sepJoin ':' v)) ∧
    ((∃ p ∈ v, ':' ∈ p) → ∃ q ∈ v, joinPathsUnix v = .error q ∧ ':' ∈ q) ∧
    joinPathsUnix [[], "/bin".toList, []] = .ok ":/bin:".toList ∧
    joinPathsUnix [[], "/bin".toList, [], [], "/usr/bin".toList, []]
      = .ok ":/bin:::/usr/bin:".toList ∧
    joinPathsUnix [] = .ok [] ∧
    joinPathsUnix ["/te:st".toList] = .error "/te:st".toList :=
  ⟨joinUnix_clean v, joinUnix_err v, rfl, rfl, rfl, rfl⟩

theorem join_paths_unix_spec_witness :
    joinPathsUnix ["/bin".toList, "/usr/bin".toList]
      = .ok (sepJoin ':' ["/bin".toList, "/usr/bin".toList]) ∧
    (∃ q ∈ [("/te:st".toList : PathStr)],
      joinPathsUnix ["/te:st".toList] = .error q ∧ ':' ∈ q) :=
  ⟨(join_paths_unix_spec _).1 (by decide), (join_paths_unix_spec _).2.1 (by decide)⟩

/-- C4: Windows `join_paths` fails with an error attributable to an
offending path whenever some input path contains the quote character;
otherwise each path containing the separator `;` is wrapped in quotes,
every other path is inserted unquoted, and the segments are joined with
`;`.  The concrete conjuncts check the spec's examples. -/
theorem join_paths_windows_spec (v : List PathStr) :
    ((∀ p ∈ v, '"' ∉ p) →
      joinPathsWindows v = .ok (sepJoin ';' (v.map quoteIfNeeded))) ∧
    ((∃ p ∈ v, '"' ∈ p) → ∃ q ∈ v, joinPathsWindows v = .error q ∧ '"' ∈ q) ∧
    quoteIfNeeded "c:\\te;st".toList = "\"c:\\te;st\"".toList ∧
    joinPathsWindows ["c:\\te;st".toList, "c:\\".toList]
      = .ok "\"c:\\te;st\";c:\\".toList ∧
    joinPathsWindows ["c:\\te\"st".toList] = .error "c:\\te\"st".toList :=
  ⟨joinWin_clean v, joinWin_err v, rfl, rfl, rfl⟩

theorem join_paths_windows_spec_witness :
    joinPathsWindows ["c:\\te;st".toList, "c:\\".toList]
      = .ok (sepJoin ';' (["c:\\te;st".toList, "c:\\".toList].map quoteIfNeeded)) ∧
    (∃ q ∈ [("c:\\te\"st".toList : PathStr)],
      joinPathsWindows ["c:\\te\"st".toList] = .error q ∧ '"' ∈ q) :=
  ⟨(join_paths_windows_spec _).1 (by decide), (join_paths_windows_spec _).2.1 (by decide)⟩

end AbstractPlatform

namespace AbstractPlatform

/-- C1 counterexample: the empty sequence of paths is accepted by
`join_paths` on both conventions (yielding the empty string), but
`split_paths` of the empty string yields one empty path, not the empty
sequence — so the round trip fails at `v = []`. -/
theorem round_trip_fails_on_empty_list :
    joinPathsUnix [] = .ok [] ∧ splitPathsUnix [] = [[]] ∧
    joinPathsWindows [] = .ok [] ∧ splitPathsWindows [] = [[]] ∧
    ([[]] : List PathStr) ≠ ([] : List PathStr) :=
  ⟨rfl, rfl, rfl, rfl, by decide⟩

/-- C1, amended: for every nonempty sequence of paths `v` that
`join_paths` accepts, `split_paths` applied to the joined result yields
exactly `v`, element for element and in order, on both platform
conventions. -/
theorem split_join_round_trip_nonempty (v : List PathStr) (s : List Char) (hv : v ≠ []) :
    (joinPathsUnix v = .ok s → splitPathsUnix s = v) ∧
    (joinPathsWindows v = .ok s → splitPathsWindows s = v) := by
  constructor
  · intro h
    obtain ⟨hc, hs⟩ := joinUnix_ok v s h
    rw [hs]
    exact splitUnix_sepJoin v hv hc
  · intro h
    obtain ⟨hc, hs⟩ := joinWin_ok v s h
    rw [hs]
    exact splitWin_sepJoin v hv hc

theorem split_join_round_trip_nonempty_witness :
    splitPathsUnix ":/bin".toList = [[], "/bin".toList] ∧
    splitPathsWindows "\"a;b\";c".toList = ["a;b".toList, "c".toList] :=
  ⟨(split_join_round_trip_nonempty [[], "/bin".toList] ":/bin".toList (by decide)).1 (by rfl),
   (split_join_round_trip_nonempty ["a;b".toList, "c".toList] "\"a;b\";c".toList
      (by decide)).2 (by rfl)⟩

/-- C5: `var` yields `NotPresent` exactly when `var_os` yields no value;
a present value that cannot be decoded as strict Unicode yields
`NotUnicode` carrying the raw native string unchanged; a present
decodable value yields the decoded string. -/
theorem var_error_cases (g : NativeString → Except String (Option NativeString))
    (key : NativeString) :
    (_var g key = .ok (.error .NotPresent) ↔ _var_os g key = .ok none) ∧
    (∀ s, _var_os g key = .ok (some s) → decodableNative s = false →
      _var g key = .ok (.error (.NotUnicode s))) ∧
    (∀ s, _var_os g key = .ok (some s) → decodableNative s = true →
      _var g key = .ok (.ok (decodeNative s))) := by
  refine ⟨⟨?_, ?_⟩, ?_, ?_⟩
  · intro h
    cases hv : _var_os g key with
    | fatal => simp [_var, hv] at h
    | ok o =>
      cases o with
      | none => rfl
      | some s =>
        cases hi : into_string s with
        | error raw => simp [_var, hv, hi] at h
        | ok str => simp [_var, hv, hi] at h
  · intro h
    simp [_var, h]
  · intro s hv hd
    simp [_var, hv, into_string, hd]
  · intro s hv hd
    simp [_var, hv, into_string, hd]

theorem var_error_cases_witness :
    _var sampleGetenv [3] = .ok (.error .NotPresent) ∧
    _var sampleGetenv [1] = .ok (.error (.NotUnicode [200])) ∧
    _var sampleGetenv [2] = .ok (.ok (decodeNative [65])) :=
  ⟨(var_error_cases sampleGetenv [3]).1.mpr (by rfl),
   (var_error_cases sampleGetenv [1]).2.1 [200] (by rfl) (by rfl),
   (var_error_cases sampleGetenv [2]).2.2 [65] (by rfl) (by rfl)⟩

end AbstractPlatform

namespace AbstractPlatform

/-- C6: the Unicode-decoding iterators panic when some element of the
snapshot cannot be decoded — `vars` on a pair whose key or value is not
decodable, `args` in both forward and reverse iteration on a
non-decodable argument — and otherwise yield every element decoded; the
raw variants `vars_os` and `args_os` never fail and yield every element
unchanged. -/
theorem unicode_iterators_fail_loudly
    (vs : List (NativeString × NativeString)) (ar : List NativeString) :
    ((∀ p ∈ vs, decodableNative p.1 ∧ decodableNative p.2) →
      varsCollect vs = .ok (vs.map (fun p => (decodeNative p.1, decodeNative p.2)))) ∧
    ((∃ p ∈ vs, ¬ decodableNative p.1 ∨ ¬ decodableNative p.2) →
      varsCollect vs = .fatal) ∧
    ((∀ a ∈ ar, decodableNative a) →
      argsCollect ar = .ok (ar.map decodeNative) ∧
      argsCollectBack ar = .ok ((ar.map decodeNative).reverse)) ∧
    ((∃ a ∈ ar, ¬ decodableNative a) →
      argsCollect ar = .fatal ∧ argsCollectBack ar = .fatal) ∧
    varsOsCollect vs = vs ∧ argsOsCollect ar = ar ∧
    argsOsCollectBack ar = ar.reverse := by
  refine ⟨varsCollect_clean vs, varsCollect_bad vs, ?_, ?_,
    varsOsCollect_id vs, argsOsCollect_id ar, argsOsCollectBack_reverse ar⟩
  · intro h
    refine ⟨argsCollect_clean ar h, ?_⟩
    rw [argsCollectBack_eq]
    rw [argsCollect_clean ar.reverse (fun a ha => h a (List.mem_reverse.mp ha))]
    simp
  · intro h
    refine ⟨argsCollect_bad ar h, ?_⟩
    rw [argsCollectBack_eq]
    refine argsCollect_bad ar.reverse ?_
    rcases h with ⟨a, ha, hda⟩
    exact ⟨a, List.mem_reverse.mpr ha, hda⟩

theorem unicode_iterators_fail_loudly_witness :
    varsCollect [([65], [66])]
      = .ok [(decodeNative [65], decodeNative [66])] ∧
    varsCollect [([65], [66]), ([200], [65])] = .fatal ∧
    argsCollect [[65], [66]] = .ok [decodeNative [65], decodeNative [66]] ∧
    argsCollect [[65], [200]] = .fatal ∧
    argsCollectBack [[65], [200]] = .fatal ∧
    varsOsCollect [([200], [0])] = [([200], [0])] ∧
    argsOsCollect [[200]] = [[200]] :=
  ⟨(unicode_iterators_fail_loudly [([65], [66])] []).1 (by decide),
   (unicode_iterators_fail_loudly [([65], [66]), ([200], [65])] []).2.1 (by decide),
   ((unicode_iterators_fail_loudly [] [[65], [66]]).2.2.1 (by decide)).1,
   ((unicode_iterators_fail_loudly [] [[65], [200]]).2.2.2.1 (by decide)).1,
   ((unicode_iterators_fail_loudly [] [[65], [200]]).2.2.2.1 (by decide)).2,
   (unicode_iterators_fail_loudly [([200], [0])] []).2.2.2.2.1,
   (unicode_iterators_fail_loudly [] [[200]]).2.2.2.2.2.1⟩

end AbstractPlatform

namespace AbstractPlatform

/-- C8: `set_var` and `remove_var` panic whenever the key is empty,
contains the ASCII equals sign (byte 61) or NUL (byte 0), or the value
contains NUL; the panic terminates the operation with no mutated
environment produced, so the ambient environment is left unchanged.  On
valid input the mutation is applied in full. -/
theorem mutation_contract_violations (env : Env) (k v : NativeString) :
    ((k = [] ∨ (61:Nat) ∈ k ∨ (0:Nat) ∈ k ∨ (0:Nat) ∈ v) →
      _set_var env k v = .fatal ∧ afterMutation env (_set_var env k v) = env) ∧
    ((k = [] ∨ (61:Nat) ∈ k ∨ (0:Nat) ∈ k) →
      _remove_var env k = .fatal ∧ afterMutation env (_remove_var env k) = env) ∧
    ((k ≠ [] ∧ (61:Nat) ∉ k ∧ (0:Nat) ∉ k ∧ (0:Nat) ∉ v) →
      _set_var env k v = .ok (envSet env k v)) ∧
    ((k ≠ [] ∧ (61:Nat) ∉ k ∧ (0:Nat) ∉ k) →
      _remove_var env k = .ok (envRemove env k)) := by
  refine ⟨?_, ?_, ?_, ?_⟩
  · intro h
    have hnot : ¬ (validKey k = true ∧ validValue v = true) := by
      rintro ⟨h1, h2⟩
      rw [validKey_iff] at h1
      rw [validValue_iff] at h2
      rcases h with h | h | h | h
      exacts [h1.1 h, h1.2.1 h, h1.2.2 h, h2 h]
    have hfalse : (validKey k && validValue v) = false := by
      cases hvk : validKey k <;> cases hvv : validValue v <;> simp_all
    have hf : _set_var env k v = .fatal := by
      simp [_set_var, setenv, hfalse]
    exact ⟨hf, by rw [hf]; rfl⟩
  · intro h
    have hnot : validKey k = false := by
      cases hvk : validKey k with
      | false => rfl
      | true =>
        have h1 := (validKey_iff k).mp hvk
        rcases h with h | h | h
        exacts [absurd h h1.1, absurd h h1.2.1, absurd h h1.2.2]
    have hf : _remove_var env k = .fatal := by
      simp [_remove_var, unsetenv, hnot]
    exact ⟨hf, by rw [hf]; rfl⟩
  · intro h
    have h1 : validKey k = true := (validKey_iff k).mpr ⟨h.1, h.2.1, h.2.2.1⟩
    have h2 : validValue v = true := (validValue_iff v).mpr h.2.2.2
    simp [_set_var, setenv, h1, h2]
  · intro h
    have h1 : validKey k = true := (validKey_iff k).mpr h
    simp [_remove_var, unsetenv, h1]

theorem mutation_contract_violations_witness :
    _set_var [] [65] [61] = .ok (envSet [] [65] [61]) ∧
    _set_var [] [61] [66] = .fatal ∧
    afterMutation [] (_set_var [] [61] [66]) = [] ∧
    _set_var [] [65] [0] = .fatal ∧
    _remove_var [([65], [66])] [] = .fatal ∧
    afterMutation [([65], [66])] (_remove_var [([65], [66])] []) = [([65], [66])] ∧
    _remove_var [([65], [66])] [65] = .ok (envRemove [([65], [66])] [65]) :=
  ⟨(mutation_contract_violations [] [65] [61]).2.2.1 (by decide),
   ((mutation_contract_violations [] [61] [66]).1 (by decide)).1,
   ((mutation_contract_violations [] [61] [66]).1 (by decide)).2,
   ((mutation_contract_violations [] [65] [0]).1 (by decide)).1,
   ((mutation_contract_violations [([65], [66])] [] [66]).2.1 (by decide)).1,
   ((mutation_contract_violations [([65], [66])] [] [66]).2.1 (by decide)).2,
   (mutation_contract_violations [([65], [66])] [65] [66]).2.2.2 (by decide)⟩

/-- C9: the `args_os` snapshot reports an exact remaining count equal to
the number of elements forward iteration yields, and reverse iteration
yields exactly the same elements as forward iteration in reverse
order. -/
theorem args_os_exact_size_and_reverse (ar : List NativeString) :
    argsOsLen ar = (argsOsCollect ar).length ∧
    argsOsCollectBack ar = (argsOsCollect ar).reverse := by
  rw [argsOsCollect_id]
  exact ⟨rfl, argsOsCollectBack_reverse ar⟩

theorem args_os_exact_size_and_reverse_witness :
    argsOsLen [[1], [2], [3]] = (argsOsCollect [[1], [2], [3]]).length ∧
    argsOsCollectBack [[1], [2], [3]] = (argsOsCollect [[1], [2], [3]]).reverse :=
  args_os_exact_size_and_reverse [[1], [2], [3]]

/-- C10: an OS-level failure of the backend `getenv` (distinct from
absence) makes `var_os`, and therefore `var`, panic; genuine absence is
mapped to no value, and by `var` to `NotPresent`, without panicking. -/
theorem var_os_panics_on_os_failure
    (g : NativeString → Except String (Option NativeString)) (key : NativeString) :
    (∀ e, g key = .error e → _var_os g key = .fatal ∧ _var g key = .fatal) ∧
    (g key = .ok none → _var_os g key = .ok none ∧
      _var g key = .ok (.error .NotPresent)) := by
  constructor
  · intro e he
    constructor <;> simp [_var, _var_os, he]
  · intro h
    constructor <;> simp [_var, _var_os, h]

theorem var_os_panics_on_os_failure_witness :
    (_var_os failingGetenv [1] = .fatal ∧ _var failingGetenv [1] = .fatal) ∧
    (_var_os sampleGetenv [3] = .ok none ∧
      _var sampleGetenv [3] = .ok (.error .NotPresent)) :=
  ⟨(var_os_panics_on_os_failure failingGetenv [1]).1 "getenv failed" (by rfl),
   (var_os_panics_on_os_failure sampleGetenv [3]).2 (by rfl)⟩

end AbstractPlatform
